import Mathlib

/-!
Verification development for the flash-arb-system core:
the RPC endpoint failover manager (`rpc-manager/src/lib.rs`) and the
routing engine (`swap-router/src/pool_graph.rs`,
`swap-router/src/route_optimizer.rs`).

Shallow embedding conventions:
* `Instant` timestamps are modelled as `Nat` milliseconds; every
  time-dependent operation takes an explicit `now` parameter.
  `Duration::from_secs(1)` becomes the constant `windowLen = 1000`.
* `Pubkey` (an opaque 32-byte id, only ever compared for equality)
  is modelled as `Nat`.
* `u64`/`u128` quantities are modelled as `Nat`; the one narrowing
  cast in the source (`as u64` in `calculate_output_amount`) is kept
  explicit as `% 2 ^ 64`.  The `u128` products themselves cannot
  overflow for in-range (`< 2 ^ 64`) operands, which the theorems
  assume where relevant, so they are plain `Nat` products.
* `f64` results of `PoolEdge::calculate_weight` are modelled by the
  carrier `FWeight`: the claims about this function depend only on
  its two early-return branches (the exact constants `0.0` and
  `f64::MAX`), which are represented exactly; the remaining finite
  arithmetic is idealized over `ℚ`.
* The `parking_lot` locks guard sequential mutation here; all
  operations are modelled as pure state-passing functions.
-/

/-! ## RPC endpoint manager (`rpc-manager/src/lib.rs`) -/

/-- `MAX_REQUESTS_PER_SECOND`: per-endpoint request cap inside one window. -/
def MAX_REQUESTS_PER_SECOND : Nat := 50

/-- One throttle window, `Duration::from_secs(1)`, in model milliseconds. -/
def windowLen : Nat := 1000

/-- Per-endpoint health record (struct `EndpointHealth`). -/
structure EndpointHealth where
  url : String
  request_count : Nat
  last_reset : Nat
  consecutive_failures : Nat
  is_healthy : Bool
deriving DecidableEq, Repr

namespace EndpointHealth

/-- `EndpointHealth::new`. -/
def new (url : String) (now : Nat) : EndpointHealth :=
  { url := url, request_count := 0, last_reset := now,
    consecutive_failures := 0, is_healthy := true }

/-- `EndpointHealth::should_throttle`: inside the 1-second window the
endpoint is throttled once `request_count` reaches the cap; once the
window has elapsed it is never throttled. -/
def should_throttle (e : EndpointHealth) (now : Nat) : Bool :=
  if windowLen < now - e.last_reset then false
  else decide (MAX_REQUESTS_PER_SECOND ≤ e.request_count)

/-- `EndpointHealth::record_request`: reset the window if it has
elapsed, then count one request. -/
def record_request (now : Nat) (e : EndpointHealth) : EndpointHealth :=
  let e1 := if windowLen < now - e.last_reset then
      { e with request_count := 0, last_reset := now }
    else e
  { e1 with request_count := e1.request_count + 1 }

/-- `EndpointHealth::record_failure`: one more consecutive failure;
at 5 the endpoint is marked unhealthy. -/
def record_failure (e : EndpointHealth) : EndpointHealth :=
  let c := e.consecutive_failures + 1
  { e with consecutive_failures := c,
           is_healthy := if 5 ≤ c then false else e.is_healthy }

/-- `EndpointHealth::record_success`: reset the failure count and mark
healthy (the source only writes the flag when it was false, but the
result is the same). -/
def record_success (e : EndpointHealth) : EndpointHealth :=
  { e with consecutive_failures := 0, is_healthy := true }

end EndpointHealth

/-- An endpoint qualifies for selection in `get_client` when it is
healthy and not throttled. -/
def qualifies (now : Nat) (e : EndpointHealth) : Bool :=
  e.is_healthy && ! e.should_throttle now

/-- The only failure `RpcManager::get_client` reports
("All RPC endpoints are throttled or unhealthy"). -/
inductive RpcError where
  | noEndpointAvailable
deriving DecidableEq, Repr

deriving instance DecidableEq for Except

/-- struct `RpcManager`: the endpoint list plus the rotating cursor. -/
structure RpcManager where
  endpoints : List EndpointHealth
  current_index : Nat
deriving DecidableEq, Repr

/-- The scan loop inside `get_client`: starting at `idx`, check up to
`fuel` candidates in round-robin order, returning the index of the
first qualifying endpoint.  The source loop checks the endpoint at the
cursor, advances, and bails once the cursor wraps to the start, i.e.
it checks exactly `endpoints.len()` candidates. -/
def scanFrom (eps : List EndpointHealth) (now : Nat) : Nat → Nat → Option Nat
  | _idx, 0 => none
  | idx, fuel + 1 =>
    match eps.get? idx with
    | none => none
    | some e =>
      if qualifies now e then some idx
      else scanFrom eps now ((idx + 1) % eps.length) fuel

namespace RpcManager

/-- `RpcManager::get_client`: round-robin scan from the cursor; on a
hit, advance the cursor past the selected endpoint, record the request
against it, and return its URL (the handle is just the URL).  The
Rust code indexes `endpoints[*current_idx]` unconditionally, so an
empty endpoint list panics there; that case is outside every claim
(the constructor always installs at least the two fallback endpoints). -/
def get_client (m : RpcManager) (now : Nat) :
    Except RpcError (String × RpcManager) :=
  match scanFrom m.endpoints now m.current_index m.endpoints.length with
  | some i =>
    match m.endpoints.get? i with
    | some e =>
      .ok (e.url,
        { endpoints := m.endpoints.set i (e.record_request now),
          current_index := (i + 1) % m.endpoints.length })
    | none => .error .noEndpointAvailable
  | none => .error .noEndpointAvailable

/-- Replace the first element satisfying `p` (the semantics of
`iter_mut().find(..)` followed by a mutation in the source). -/
def updateFirst (p : α → Bool) (f : α → α) : List α → List α
  | [] => []
  | x :: xs => if p x then f x :: xs else x :: updateFirst p f xs

/-- `RpcManager::record_success`: update the first endpoint with a
matching URL; no-op when the URL is unknown. -/
def record_success (m : RpcManager) (url : String) : RpcManager :=
  { m with endpoints := updateFirst (fun e => e.url == url) EndpointHealth.record_success m.endpoints }

/-- `RpcManager::record_failure`: update the first endpoint with a
matching URL; no-op when the URL is unknown. -/
def record_failure (m : RpcManager) (url : String) : RpcManager :=
  { m with endpoints := updateFirst (fun e => e.url == url) EndpointHealth.record_failure m.endpoints }

end RpcManager

/-- A caller issuing `n` consecutive `get_client` calls at time `now`,
collecting each call's result; a failed call leaves the manager
unchanged (the cursor ends back at its starting value in the source). -/
def runSelects (now : Nat) : Nat → RpcManager → List (Except RpcError String) × RpcManager
  | 0, m => ([], m)
  | n + 1, m =>
    match m.get_client now with
    | .ok (u, m') =>
      let r := runSelects now n m'
      (Except.ok u :: r.1, r.2)
    | .error err =>
      let r := runSelects now n m
      (Except.error err :: r.1, r.2)

/-- Iterate a function `n` times (used to state repeated
`record_failure` calls). -/
def iterateOp (f : α → α) : Nat → α → α
  | 0, a => a
  | n + 1, a => iterateOp f n (f a)

/-! ## Pool graph (`swap-router/src/pool_graph.rs`) -/

/-- Opaque 32-byte `Pubkey`; only equality is used. -/
abbrev Pubkey := Nat

/-- enum `DexType`. -/
inductive DexType where
  | raydiumV4
  | raydiumCPMM
  | raydiumCLMM
  | orcaWhirlpool
  | meteoraDLMM
deriving DecidableEq, Repr

/-- struct `PoolEdge` (the payload of each directed graph edge). -/
structure PoolEdge where
  pool_address : Pubkey
  dex_type : DexType
  token_a : Pubkey
  token_b : Pubkey
  reserve_a : Nat
  reserve_b : Nat
  fee_bps : Nat
deriving DecidableEq, Repr

/-- Carrier for `f64` results of `calculate_weight`: `fmax` is the
exact constant `f64::MAX`; `val q` idealizes a finite computed value
over `ℚ` (the claims only distinguish the two early-return branches,
which are exact). -/
inductive FWeight where
  | val : ℚ → FWeight
  | fmax : FWeight
deriving DecidableEq

namespace PoolEdge

/-- `PoolEdge::calculate_weight`: price-impact heuristic plus fee
penalty.  Note the source tests `amount_in == 0` before
`reserve_in == 0`. -/
def calculate_weight (e : PoolEdge) (from_token : Pubkey) (amount_in : Nat) :
    FWeight :=
  if amount_in = 0 then .val 0
  else
    let reserve_in := if from_token = e.token_a then e.reserve_a else e.reserve_b
    if reserve_in = 0 then .fmax
    else .val ((amount_in : ℚ) / ((reserve_in : ℚ) + (amount_in : ℚ))
               + (e.fee_bps : ℚ) / 10000)

end PoolEdge

/-- The failures of `PoolGraph`/`RouteFinder` operations:
"Start/End token not in graph", "No route found", "Edge lost in path",
"Pool not found". -/
inductive RouteError where
  | tokenNotInGraph
  | noRouteFound
  | edgeLost
  | poolNotFound
deriving DecidableEq, Repr

/-- struct `PoolGraph`: a `petgraph::DiGraph` (node payloads in
insertion order; directed edges as (source index, target index,
payload) in insertion order) plus the `token_to_node` map (modelled as
an association list with unique keys; `HashMap` iteration order is
never observed by the source). -/
structure PoolGraph where
  nodes : List Pubkey
  edges : List (Nat × Nat × PoolEdge)
  token_to_node : List (Pubkey × Nat)
deriving DecidableEq, Repr

/-- `HashMap::get` on the token map. -/
def lookupToken : List (Pubkey × Nat) → Pubkey → Option Nat
  | [], _ => none
  | (a, i) :: r, t => if a = t then some i else lookupToken r t

namespace PoolGraph

/-- `PoolGraph::new`. -/
def new : PoolGraph := { nodes := [], edges := [], token_to_node := [] }

/-- `PoolGraph::get_or_create_node` (the source writes `this.` for
`self.`, an obvious slip kept as `self` here): return the existing
node index for a token or append a fresh node. -/
def get_or_create_node (g : PoolGraph) (t : Pubkey) : PoolGraph × Nat :=
  match lookupToken g.token_to_node t with
  | some i => (g, i)
  | none =>
    ({ g with nodes := g.nodes ++ [t],
              token_to_node := g.token_to_node ++ [(t, g.nodes.length)] },
     g.nodes.length)

/-- `PoolGraph::add_pool`: ensure both token nodes exist, then insert
the two directed edges A→B and B→A sharing one payload. -/
def add_pool (g : PoolGraph) (pool_address token_a token_b : Pubkey)
    (reserve_a reserve_b : Nat) (dex_type : DexType) (fee_bps : Nat) :
    PoolGraph :=
  let p1 := g.get_or_create_node token_a
  let p2 := p1.1.get_or_create_node token_b
  let edge : PoolEdge :=
    { pool_address := pool_address, dex_type := dex_type,
      token_a := token_a, token_b := token_b,
      reserve_a := reserve_a, reserve_b := reserve_b, fee_bps := fee_bps }
  { p2.1 with edges := p2.1.edges ++ [(p1.2, p2.2, edge), (p2.2, p1.2, edge)] }

/-- `petgraph` `find_edge`: some edge from `u` to `v`, if any.  (The
library walks its adjacency lists; which parallel edge is returned is
irrelevant to every claim, because all parallel edges inserted by
`add_pool` carry token payloads matching their endpoints.) -/
def find_edge (g : PoolGraph) (u v : Nat) : Option PoolEdge :=
  (g.edges.find? (fun ed => decide (ed.1 = u ∧ ed.2.1 = v))).map (·.2.2)

/-- Successor node indices of `u` (the directed edges out of `u`). -/
def succs (g : PoolGraph) (u : Nat) : List Nat :=
  (g.edges.filter (fun ed => decide (ed.1 = u))).map (fun ed => ed.2.1)

end PoolGraph

/-- First `some` produced by `f` over a list. -/
def firstSome (f : α → Option β) : List α → Option β
  | [] => none
  | x :: xs =>
    match f x with
    | some b => some b
    | none => firstSome f xs

/-- Bounded depth-first search for a directed walk from `u` to `goal`,
avoiding `visited`; `fuel` bounds the recursion depth (the top-level
call passes the node count, enough for any simple walk). -/
def dfsPath (g : PoolGraph) (goal : Nat) :
    Nat → List Nat → Nat → Option (List Nat)
  | 0, _visited, u => if u = goal then some [u] else none
  | fuel + 1, visited, u =>
    if u = goal then some [u]
    else
      firstSome
        (fun v =>
          if v ∈ u :: visited then none
          else (dfsPath g goal fuel (u :: visited) v).map (fun p => u :: p))
        (g.succs u)

/-- Model of `petgraph::algo::astar` as called by `find_route` (zero
heuristic, f64 edge costs from `calculate_weight`; the costs are never
NaN, so the library returns some start-to-goal node path exactly when
the goal is reachable, and `[start]` when `start = goal`).  The claims
depend only on that contract — existence plus the returned path being
a directed walk — never on which minimal-cost path is picked, so the
search is realized as a bounded DFS with exactly that contract. -/
def astarModel (g : PoolGraph) (s t : Nat) : Option (List Nat) :=
  dfsPath g t g.nodes.length [] s

namespace PoolGraph

/-- The route-building loop at the end of `find_route`: for each
consecutive node pair of the returned path, look up an edge and record
`(graph[u], edge)`.  (`graph[u]` is total in the source; path nodes
are always in range, so the default in `getD` is never read.) -/
def buildRoute (g : PoolGraph) : List Nat → Except RouteError (List (Pubkey × PoolEdge))
  | [] => .ok []
  | [_] => .ok []
  | u :: v :: rest =>
    match g.find_edge u v with
    | none => .error .edgeLost
    | some e =>
      match buildRoute g (v :: rest) with
      | .ok r => .ok ((g.nodes.getD u 0, e) :: r)
      | .error err => .error err

/-- `PoolGraph::find_route`: resolve both tokens in `token_to_node`
(failing with "token not in graph"), run the search (failing with
"no route found"), then build the `(source token, edge)` route.  The
function takes `&self`; the graph is never mutated.  `amount_in` only
feeds the edge costs, which do not affect these claims. -/
def find_route (g : PoolGraph) (fromToken toToken : Pubkey)
    (_amount_in : Nat) : Except RouteError (List (Pubkey × PoolEdge)) :=
  match lookupToken g.token_to_node fromToken with
  | none => .error .tokenNotInGraph
  | some s =>
    match lookupToken g.token_to_node toToken with
    | none => .error .tokenNotInGraph
    | some t =>
      match astarModel g s t with
      | some path => g.buildRoute path
      | none => .error .noRouteFound

/-- `PoolGraph::update_reserves`: overwrite the canonical reserve pair
of every edge tagged with the pool id; report `PoolNotFound` when no
edge matches.  The pair returned is (result, graph after the call),
mirroring `&mut self` plus `Result`. -/
def update_reserves (g : PoolGraph) (pool_address : Pubkey)
    (reserve_a reserve_b : Nat) : Except RouteError Unit × PoolGraph :=
  let edges' := g.edges.map (fun ed =>
    if ed.2.2.pool_address = pool_address then
      (ed.1, ed.2.1,
        { ed.2.2 with reserve_a := reserve_a, reserve_b := reserve_b })
    else ed)
  let found := g.edges.any (fun ed => decide (ed.2.2.pool_address = pool_address))
  (if found then .ok () else .error .poolNotFound, { g with edges := edges' })

end PoolGraph

/-- One directed edge from `u` to `v` exists. -/
def hasEdge (g : PoolGraph) (u v : Nat) : Prop :=
  ∃ ed ∈ g.edges, ed.1 = u ∧ ed.2.1 = v

/-- A directed path connects node `s` to node `t`. -/
def Reach (g : PoolGraph) (s t : Nat) : Prop :=
  Relation.ReflTransGen (hasEdge g) s t

/-- `p` is a nonempty directed walk from `s` to `t` through `g`. -/
def WalkFrom (g : PoolGraph) (s t : Nat) (p : List Nat) : Prop :=
  p ≠ [] ∧ p.head? = some s ∧ p.getLast? = some t ∧ List.Chain' (hasEdge g) p

/-- Well-formed graphs: every state reachable through the `PoolGraph`
API.  Edge endpoints are in range; `token_to_node` entries point at
the node holding their token; every edge's payload tokens are exactly
its endpoint tokens (in one of the two directions `add_pool` inserts). -/
def WFGraph (g : PoolGraph) : Prop :=
  (∀ ed ∈ g.edges, ed.1 < g.nodes.length ∧ ed.2.1 < g.nodes.length) ∧
  (∀ pr ∈ g.token_to_node, pr.2 < g.nodes.length ∧ g.nodes.get? pr.2 = some pr.1) ∧
  (∀ ed ∈ g.edges,
    (ed.2.2.token_a = g.nodes.getD ed.1 0 ∧ ed.2.2.token_b = g.nodes.getD ed.2.1 0) ∨
    (ed.2.2.token_b = g.nodes.getD ed.1 0 ∧ ed.2.2.token_a = g.nodes.getD ed.2.1 0))

instance (g : PoolGraph) : Decidable (WFGraph g) := by
  unfold WFGraph; infer_instance

/-- The implicit destination token of a hop: the edge's non-source
token (spec §3). -/
def hopDest (h : Pubkey × PoolEdge) : Pubkey :=
  if h.1 = h.2.token_a then h.2.token_b else h.2.token_a

/-- Consecutive hops chain token-to-token: each hop's destination
token is the next hop's source token. -/
def HopChain : List (Pubkey × PoolEdge) → Prop
  | [] => True
  | [_] => True
  | h1 :: h2 :: rest => hopDest h1 = h2.1 ∧ HopChain (h2 :: rest)

/-! ## Route optimizer (`swap-router/src/route_optimizer.rs`) -/

/-- `reserve_in` of a hop, resolved by whether the hop's source token
is the edge's `token_a`. -/
def resolvedIn (h : Pubkey × PoolEdge) : Nat :=
  if h.1 = h.2.token_a then h.2.reserve_a else h.2.reserve_b

/-- `reserve_out` of a hop (the opposite side of `resolvedIn`). -/
def resolvedOut (h : Pubkey × PoolEdge) : Nat :=
  if h.1 = h.2.token_a then h.2.reserve_b else h.2.reserve_a

namespace RouteOptimizer

/-- The loop body of `RouteOptimizer::calculate_output_amount`:
`current_amount` threads through the hops; a zero reserve returns 0
for the whole route; otherwise the constant-product output is computed
in 128-bit arithmetic (plain `Nat` here — the products fit in `u128`
for in-range operands) and narrowed back with `as u64`, kept explicit
as `% 2 ^ 64`. -/
def calcGo : List (Pubkey × PoolEdge) → Nat → Nat
  | [], current => current
  | h :: rest, current =>
    if resolvedIn h = 0 ∨ resolvedOut h = 0 then 0
    else
      let amount_after_fee := current * (10000 - h.2.fee_bps) / 10000
      let numerator := amount_after_fee * resolvedOut h
      let denominator := resolvedIn h + amount_after_fee
      calcGo rest (numerator / denominator % 2 ^ 64)

/-- `RouteOptimizer::calculate_output_amount`. -/
def calculate_output_amount (route : List (Pubkey × PoolEdge))
    (amount_in : Nat) : Nat :=
  calcGo route amount_in

/-- Modelled from the spec (§4.4 `simulate`): the reference fold —
`amountAfterFee = floor(currentAmount * (10000 - feeBps) / 10000)`,
`amountOut = floor(amountAfterFee * reserve_out / (reserve_in + amountAfterFee))`,
computed exactly (no narrowing), zero reserves short-circuit to 0. -/
def simSpecGo : List (Pubkey × PoolEdge) → Nat → Nat
  | [], current => current
  | h :: rest, current =>
    if resolvedIn h = 0 ∨ resolvedOut h = 0 then 0
    else
      let amount_after_fee := current * (10000 - h.2.fee_bps) / 10000
      simSpecGo rest
        (amount_after_fee * resolvedOut h / (resolvedIn h + amount_after_fee))

/-- Modelled from the spec: `simulate(route, amountIn)` as §4.4 words it. -/
def simulateSpec (route : List (Pubkey × PoolEdge)) (amount_in : Nat) : Nat :=
  simSpecGo route amount_in

end RouteOptimizer

/-! ## Arithmetic helper lemmas -/

/-- Cross-multiplied comparison implies comparison of floor quotients. -/
lemma div_le_div_cross {p q r s : Nat} (hs : 0 < s) (h : p * s ≤ r * q) :
    p / q ≤ r / s := by
  rcases Nat.eq_zero_or_pos q with hq | hq
  · simp [hq]
  · rw [Nat.le_div_iff_mul_le hs]
    have h1 : p / q * q ≤ p := Nat.div_mul_le_self p q
    have h2 : p / q * s * q ≤ r * q := by
      calc p / q * s * q = p / q * q * s := by ring
        _ ≤ p * s := Nat.mul_le_mul_right s h1
        _ ≤ r * q := h
    exact Nat.le_of_mul_le_mul_right h2 hq

/-- The constant-product quotient is strictly below `reserve_out`. -/
lemma hop_quotient_lt {ri ro : Nat} (hri : ri ≠ 0) (hro : ro ≠ 0) (a : Nat) :
    a * ro / (ri + a) < ro := by
  have hpos : 0 < ri + a := by omega
  rw [Nat.div_lt_iff_lt_mul hpos]
  have h1 : 0 < ri * ro := Nat.mul_pos (Nat.pos_of_ne_zero hri) (Nat.pos_of_ne_zero hro)
  calc a * ro < a * ro + ri * ro := by omega
    _ = ro * (ri + a) := by ring

/-! ## Route-optimizer lemmas -/

namespace RouteOptimizer

/-- The resolved output reserve is below `2 ^ 64` whenever both stored
reserves are (it is one of them). -/
lemma resolvedOut_lt {h : Pubkey × PoolEdge}
    (hu : h.2.reserve_a < 2 ^ 64 ∧ h.2.reserve_b < 2 ^ 64) :
    resolvedOut h < 2 ^ 64 := by
  unfold resolvedOut; split <;> omega

/-- With `u64`-range reserves the narrowing cast in `calcGo` never
truncates, so the source fold equals the exact reference fold. -/
lemma calcGo_eq_simSpecGo :
    ∀ (route : List (Pubkey × PoolEdge)) (cur : Nat),
      (∀ h ∈ route, h.2.reserve_a < 2 ^ 64 ∧ h.2.reserve_b < 2 ^ 64) →
      calcGo route cur = simSpecGo route cur := by
  intro route
  induction route with
  | nil => intro cur _; rfl
  | cons h rest ih =>
    intro cur hres
    simp only [calcGo, simSpecGo]
    by_cases hz : resolvedIn h = 0 ∨ resolvedOut h = 0
    · rw [if_pos hz, if_pos hz]
    · rw [if_neg hz, if_neg hz]
      push_neg at hz
      have hro : resolvedOut h < 2 ^ 64 :=
        resolvedOut_lt (hres h (List.mem_cons_self h rest))
      have hlt := hop_quotient_lt hz.1 hz.2 (cur * (10000 - h.2.fee_bps) / 10000)
      rw [Nat.mod_eq_of_lt (lt_trans hlt hro)]
      exact ih _ (fun x hx => hres x (List.mem_cons_of_mem h hx))

/-- Zero in, zero out, for every route. -/
lemma calcGo_zero : ∀ (route : List (Pubkey × PoolEdge)), calcGo route 0 = 0 := by
  intro route
  induction route with
  | nil => rfl
  | cons h rest ih =>
    simp only [calcGo]
    by_cases hz : resolvedIn h = 0 ∨ resolvedOut h = 0
    · rw [if_pos hz]
    · rw [if_neg hz]
      simpa using ih

/-- The fold over a concatenation threads `current_amount` through the
first part (a short-circuit in the first part forces 0 everywhere). -/
lemma calcGo_append :
    ∀ (l1 l2 : List (Pubkey × PoolEdge)) (cur : Nat),
      calcGo (l1 ++ l2) cur = calcGo l2 (calcGo l1 cur) := by
  intro l1
  induction l1 with
  | nil => intro l2 cur; rfl
  | cons h rest ih =>
    intro l2 cur
    simp only [List.cons_append, calcGo]
    by_cases hz : resolvedIn h = 0 ∨ resolvedOut h = 0
    · rw [if_pos hz, if_pos hz, calcGo_zero]
    · rw [if_neg hz, if_neg hz]
      exact ih _ _

/-- Monotonicity of the fold in the input amount. -/
lemma calcGo_mono :
    ∀ (route : List (Pubkey × PoolEdge)) (x y : Nat),
      (∀ h ∈ route, h.2.reserve_a < 2 ^ 64 ∧ h.2.reserve_b < 2 ^ 64) →
      x ≤ y → calcGo route x ≤ calcGo route y := by
  intro route
  induction route with
  | nil => intro x y _ hxy; exact hxy
  | cons h rest ih =>
    intro x y hres hxy
    simp only [calcGo]
    by_cases hz : resolvedIn h = 0 ∨ resolvedOut h = 0
    · rw [if_pos hz, if_pos hz]
    · rw [if_neg hz, if_neg hz]
      push_neg at hz
      set ax := x * (10000 - h.2.fee_bps) / 10000 with hax
      set ay := y * (10000 - h.2.fee_bps) / 10000 with hay
      have haxy : ax ≤ ay :=
        Nat.div_le_div_right (Nat.mul_le_mul_right _ hxy)
      have hq : ax * resolvedOut h / (resolvedIn h + ax)
          ≤ ay * resolvedOut h / (resolvedIn h + ay) := by
        apply div_le_div_cross (by omega)
        calc ax * resolvedOut h * (resolvedIn h + ay)
            = ax * resolvedOut h * resolvedIn h + ax * resolvedOut h * ay := by ring
          _ ≤ ay * resolvedOut h * resolvedIn h + ax * resolvedOut h * ay :=
              Nat.add_le_add_right
                (Nat.mul_le_mul_right _ (Nat.mul_le_mul_right _ haxy)) _
          _ = ay * resolvedOut h * resolvedIn h + ay * resolvedOut h * ax := by ring
          _ = ay * resolvedOut h * (resolvedIn h + ax) := by ring
      have hro : resolvedOut h < 2 ^ 64 :=
        resolvedOut_lt (hres h (List.mem_cons_self h rest))
      have hx64 := hop_quotient_lt hz.1 hz.2 ax
      have hy64 := hop_quotient_lt hz.1 hz.2 ay
      rw [Nat.mod_eq_of_lt (lt_trans hx64 hro), Nat.mod_eq_of_lt (lt_trans hy64 hro)]
      exact ih _ _ (fun e he => hres e (List.mem_cons_of_mem h he)) hq

/-- A zero resolved reserve anywhere on the route forces output 0. -/
lemma calcGo_zero_hop :
    ∀ (route : List (Pubkey × PoolEdge)) (z : Nat),
      (∃ h ∈ route, resolvedIn h = 0 ∨ resolvedOut h = 0) →
      calcGo route z = 0 := by
  intro route
  induction route with
  | nil => intro z hz; rcases hz with ⟨h, hmem, _⟩; cases hmem
  | cons h rest ih =>
    intro z hz
    simp only [calcGo]
    by_cases hzh : resolvedIn h = 0 ∨ resolvedOut h = 0
    · rw [if_pos hzh]
    · rw [if_neg hzh]
      rcases hz with ⟨h', hmem, hprop⟩
      rcases List.mem_cons.mp hmem with heq | hmem'
      · exact absurd (heq ▸ hprop) hzh
      · exact ih _ ⟨h', hmem', hprop⟩

end RouteOptimizer

/-! ## Claim C8 -/

/-- C8: `calculate_output_amount` equals the reference fold of the
spec: per hop, reserves resolved by the source token, zero reserves
short-circuit to 0, otherwise
`floor(floor(cur*(10000-fee)/10000) * ro / (ri + floor(cur*(10000-fee)/10000)))`
computed exactly; an empty route returns `amount_in` unchanged.  The
`u64`-range hypotheses render the Rust field types. -/
theorem c8_simulate_reference (route : List (Pubkey × PoolEdge)) (amount_in : Nat)
    (_hfee : ∀ h ∈ route, h.2.fee_bps ≤ 10000)
    (hres : ∀ h ∈ route, h.2.reserve_a < 2 ^ 64 ∧ h.2.reserve_b < 2 ^ 64) :
    RouteOptimizer.calculate_output_amount route amount_in =
      RouteOptimizer.simulateSpec route amount_in :=
  RouteOptimizer.calcGo_eq_simSpecGo route amount_in hres

/-- Witness for C8 at the spec §8 end-to-end pool. -/
theorem c8_simulate_reference_witness :
    RouteOptimizer.calculate_output_amount
        [(1, ⟨7, .raydiumV4, 1, 2, 1000000000, 150000000, 30⟩)] 10000000 =
      RouteOptimizer.simulateSpec
        [(1, ⟨7, .raydiumV4, 1, 2, 1000000000, 150000000, 30⟩)] 10000000 :=
  c8_simulate_reference _ _ (by decide) (by decide)

/-! ## Claim C9 -/

/-- C9: for a fixed non-empty route with `fee_bps ≤ 10000` hops,
`calculate_output_amount` is non-decreasing in `amount_in`, returns 0
at `amount_in = 0`, and returns 0 whenever some hop's resolved reserve
is 0. -/
theorem c9_monotone_and_zero (route : List (Pubkey × PoolEdge)) (x y : Nat)
    (_hne : route ≠ [])
    (_hfee : ∀ h ∈ route, h.2.fee_bps ≤ 10000)
    (hres : ∀ h ∈ route, h.2.reserve_a < 2 ^ 64 ∧ h.2.reserve_b < 2 ^ 64)
    (hxy : x ≤ y) :
    RouteOptimizer.calculate_output_amount route x ≤
        RouteOptimizer.calculate_output_amount route y ∧
    RouteOptimizer.calculate_output_amount route 0 = 0 ∧
    ((∃ h ∈ route, resolvedIn h = 0 ∨ resolvedOut h = 0) →
      ∀ z, RouteOptimizer.calculate_output_amount route z = 0) :=
  ⟨RouteOptimizer.calcGo_mono route x y hres hxy,
   RouteOptimizer.calcGo_zero route,
   fun hz z => RouteOptimizer.calcGo_zero_hop route z hz⟩

/-- Witness for C9 on a concrete single-hop route. -/
theorem c9_monotone_and_zero_witness :
    RouteOptimizer.calculate_output_amount
        [(1, ⟨7, .raydiumV4, 1, 2, 1000, 500, 30⟩)] 10 ≤
      RouteOptimizer.calculate_output_amount
        [(1, ⟨7, .raydiumV4, 1, 2, 1000, 500, 30⟩)] 20 ∧
    RouteOptimizer.calculate_output_amount
        [(1, ⟨7, .raydiumV4, 1, 2, 1000, 500, 30⟩)] 0 = 0 :=
  have h := c9_monotone_and_zero [(1, ⟨7, .raydiumV4, 1, 2, 1000, 500, 30⟩)]
    10 20 (by decide) (by decide) (by decide) (by decide)
  ⟨h.1, h.2.1⟩

/-! ## Claim C10 -/

/-- C10: with nonzero resolved reserves on every hop, each hop's
128-bit quotient is strictly below that hop's `reserve_out` (stated
for every decomposition `pre ++ hop :: post` of the route: the amount
emitted by `pre ++ [hop]` is exactly that hop's quotient), hence the
`as u64` narrowing never truncates and the whole fold equals the exact
reference fold; with `post = []` the first conjunct bounds the
returned output by the final hop's `reserve_out`. -/
theorem c10_no_truncation (pre post : List (Pubkey × PoolEdge))
    (hop : Pubkey × PoolEdge) (amount_in : Nat)
    (hres : ∀ h ∈ pre ++ hop :: post, resolvedIn h ≠ 0 ∧ resolvedOut h ≠ 0)
    (hresU : ∀ h ∈ pre ++ hop :: post, h.2.reserve_a < 2 ^ 64 ∧ h.2.reserve_b < 2 ^ 64)
    (_hfee : ∀ h ∈ pre ++ hop :: post, h.2.fee_bps ≤ 10000) :
    RouteOptimizer.calculate_output_amount (pre ++ [hop]) amount_in < resolvedOut hop ∧
    RouteOptimizer.calculate_output_amount (pre ++ hop :: post) amount_in =
      RouteOptimizer.simulateSpec (pre ++ hop :: post) amount_in := by
  constructor
  · have hhop : resolvedIn hop ≠ 0 ∧ resolvedOut hop ≠ 0 :=
      hres hop (List.mem_append_right pre (List.mem_cons_self hop post))
    unfold RouteOptimizer.calculate_output_amount
    rw [RouteOptimizer.calcGo_append]
    simp only [RouteOptimizer.calcGo]
    rw [if_neg (by push_neg; exact hhop)]
    exact lt_of_le_of_lt (Nat.mod_le _ _)
      (hop_quotient_lt hhop.1 hhop.2 _)
  · exact RouteOptimizer.calcGo_eq_simSpecGo _ amount_in hresU

/-- Witness for C10: a two-hop route decomposed at its second hop. -/
theorem c10_no_truncation_witness :
    RouteOptimizer.calculate_output_amount
        [(1, ⟨7, .raydiumV4, 1, 2, 1000, 500, 30⟩),
         (2, ⟨8, .raydiumV4, 2, 3, 900, 800, 1⟩)] 10 <
      resolvedOut (2, ⟨8, .raydiumV4, 2, 3, 900, 800, 1⟩) :=
  (c10_no_truncation [(1, ⟨7, .raydiumV4, 1, 2, 1000, 500, 30⟩)] []
    (2, ⟨8, .raydiumV4, 2, 3, 900, 800, 1⟩) 10
    (by decide) (by decide) (by decide)).1

/-! ## Claim C4 -/

/-- Edge used to refute C4 as stated: `reserve_a = 0` on the
source-token side. -/
def c4Edge : PoolEdge := ⟨7, .raydiumV4, 1, 2, 0, 5, 30⟩

/-- C4 counterexample: at `amount_in = 0` the source returns `0.0`
before it ever checks the reserve, so a zero `reserve_in` does not
yield `f64::MAX`. -/
theorem c4_counterexample :
    (if (1 : Pubkey) = c4Edge.token_a then c4Edge.reserve_a else c4Edge.reserve_b) = 0 ∧
    c4Edge.calculate_weight 1 0 = FWeight.val 0 ∧
    c4Edge.calculate_weight 1 0 ≠ FWeight.fmax := by
  refine ⟨by decide, rfl, ?_⟩
  intro h
  simp [PoolEdge.calculate_weight, c4Edge] at h

/-- C4 amended: for `amount_in ≠ 0`, a zero reserve on the source
side makes `calculate_weight` return `f64::MAX`; and at
`amount_in = 0` the function returns `0.0` for every edge, every
source token and every pair of reserves. -/
theorem c4_zero_reserve_max (e : PoolEdge) (tok : Pubkey) (amt : Nat)
    (hamt : amt ≠ 0)
    (hres : (if tok = e.token_a then e.reserve_a else e.reserve_b) = 0) :
    e.calculate_weight tok amt = FWeight.fmax ∧
    (∀ (e' : PoolEdge) (tok' : Pubkey),
      e'.calculate_weight tok' 0 = FWeight.val 0) := by
  constructor
  · unfold PoolEdge.calculate_weight
    rw [if_neg hamt]
    simp only [hres]
    rfl
  · intro e' tok'
    unfold PoolEdge.calculate_weight
    rw [if_pos rfl]

/-- Witness for the amended C4: both conjuncts at concrete inputs. -/
theorem c4_zero_reserve_max_witness :
    c4Edge.calculate_weight 1 3 = FWeight.fmax ∧
    c4Edge.calculate_weight 1 0 = FWeight.val 0 :=
  have h := c4_zero_reserve_max c4Edge 1 3 (by decide) (by decide)
  ⟨h.1, h.2 c4Edge 1⟩

/-! ## Claim C7 -/

/-- C7: `update_reserves` succeeds exactly when some edge carries the
pool id; nodes and the token map are untouched; edge-wise, every edge
tagged with the pool id gets the canonical reserve pair overwritten
(direction-independent) and every other edge is unchanged; on
`PoolNotFound` the whole graph is unchanged. -/
theorem c7_update_reserves (g : PoolGraph) (p : Pubkey) (ra rb : Nat) :
    ((g.update_reserves p ra rb).1 = .ok () ↔
      ∃ ed ∈ g.edges, ed.2.2.pool_address = p) ∧
    ((g.update_reserves p ra rb).1 = .error .poolNotFound ↔
      ¬ ∃ ed ∈ g.edges, ed.2.2.pool_address = p) ∧
    (g.update_reserves p ra rb).2.nodes = g.nodes ∧
    (g.update_reserves p ra rb).2.token_to_node = g.token_to_node ∧
    List.Forall₂ (fun ed ed' =>
        (ed.2.2.pool_address = p →
          ed' = (ed.1, ed.2.1,
            { ed.2.2 with reserve_a := ra, reserve_b := rb })) ∧
        (ed.2.2.pool_address ≠ p → ed' = ed))
      g.edges (g.update_reserves p ra rb).2.edges ∧
    ((g.update_reserves p ra rb).1 = .error .poolNotFound →
      (g.update_reserves p ra rb).2 = g) := by
  have hfound : (g.edges.any fun ed => decide (ed.2.2.pool_address = p)) = true ↔
      ∃ ed ∈ g.edges, ed.2.2.pool_address = p := by
    rw [List.any_eq_true]
    constructor
    · rintro ⟨ed, hmem, hd⟩; exact ⟨ed, hmem, of_decide_eq_true hd⟩
    · rintro ⟨ed, hmem, hd⟩; exact ⟨ed, hmem, decide_eq_true hd⟩
  refine ⟨?_, ?_, rfl, rfl, ?_, ?_⟩
  · unfold PoolGraph.update_reserves
    simp only
    constructor
    · intro h
      by_cases hb : (g.edges.any fun ed => decide (ed.2.2.pool_address = p)) = true
      · exact hfound.mp hb
      · rw [if_neg hb] at h; cases h
    · intro h
      rw [if_pos (hfound.mpr h)]
  · unfold PoolGraph.update_reserves
    simp only
    constructor
    · intro h hex
      rw [if_pos (hfound.mpr hex)] at h; cases h
    · intro h
      rw [if_neg (fun hb => h (hfound.mp hb))]
  · unfold PoolGraph.update_reserves
    simp only
    rw [List.forall₂_map_right_iff]
    rw [List.forall₂_same]
    intro ed _hmem
    constructor
    · intro hp; rw [if_pos hp]
    · intro hp; rw [if_neg hp]
  · intro herr
    have hnone : ¬ ∃ ed ∈ g.edges, ed.2.2.pool_address = p := by
      intro hex
      unfold PoolGraph.update_reserves at herr
      simp only at herr
      rw [if_pos (hfound.mpr hex)] at herr; cases herr
    unfold PoolGraph.update_reserves
    simp only
    cases g with
    | mk nodes edges token_to_node =>
      simp only [PoolGraph.mk.injEq, and_true, true_and]
      have : ∀ ed ∈ edges, (if ed.2.2.pool_address = p then
          (ed.1, ed.2.1, { ed.2.2 with reserve_a := ra, reserve_b := rb })
        else ed) = ed := by
        intro ed hmem
        rw [if_neg (fun hp => hnone ⟨ed, hmem, hp⟩)]
      rw [List.map_congr_left this]
      simp

/-! ## Claim C3 -/

/-- `updateFirst` is the identity when nothing matches. -/
lemma updateFirst_no_match {α : Type} {p : α → Bool} {f : α → α} :
    ∀ (L : List α), (∀ x ∈ L, p x = false) →
      RpcManager.updateFirst p f L = L := by
  intro L
  induction L with
  | nil => intro _; rfl
  | cons x xs ih =>
    intro h
    simp only [RpcManager.updateFirst]
    rw [if_neg (by rw [h x (List.mem_cons_self x xs)]; simp)]
    rw [ih (fun y hy => h y (List.mem_cons_of_mem x hy))]

/-- `updateFirst` rewrites exactly the first matching element. -/
lemma updateFirst_split {α : Type} {p : α → Bool} {f : α → α} :
    ∀ (P : List α) (e : α) (rest : List α),
      (∀ x ∈ P, p x = false) → p e = true →
      RpcManager.updateFirst p f (P ++ e :: rest) = P ++ f e :: rest := by
  intro P
  induction P with
  | nil =>
    intro e rest _ he
    simp only [List.nil_append, RpcManager.updateFirst]
    rw [if_pos he]
  | cons x xs ih =>
    intro e rest hP he
    simp only [List.cons_append, RpcManager.updateFirst]
    rw [if_neg (by rw [hP x (List.mem_cons_self x xs)]; simp)]
    show x :: RpcManager.updateFirst p f (xs ++ e :: rest) = _
    rw [ih e rest (fun y hy => hP y (List.mem_cons_of_mem x hy)) he]

/-- Peeling the last application of an `iterateOp`. -/
lemma iterateOp_succ_outer {α : Type} (f : α → α) :
    ∀ (n : Nat) (a : α), iterateOp f (n + 1) a = f (iterateOp f n a) := by
  intro n
  induction n with
  | zero => intro a; rfl
  | succ n ih =>
    intro a
    show iterateOp f (n + 1) (f a) = f (iterateOp f (n + 1) a)
    rw [ih (f a)]
    rfl

/-- `record_failure` leaves the URL alone. -/
lemma record_failure_url (e : EndpointHealth) :
    (e.record_failure).url = e.url := rfl

/-- Iterated `record_failure` leaves the URL alone. -/
lemma iterate_record_failure_url :
    ∀ (n : Nat) (e : EndpointHealth),
      (iterateOp EndpointHealth.record_failure n e).url = e.url := by
  intro n
  induction n with
  | zero => intro e; rfl
  | succ n ih =>
    intro e
    show (iterateOp EndpointHealth.record_failure n e.record_failure).url = e.url
    rw [ih e.record_failure]
    rfl

/-- Iterated `record_failure` adds `n` to the failure count. -/
lemma iterate_record_failure_count :
    ∀ (n : Nat) (e : EndpointHealth),
      (iterateOp EndpointHealth.record_failure n e).consecutive_failures =
        e.consecutive_failures + n := by
  intro n
  induction n with
  | zero => intro e; rfl
  | succ n ih =>
    intro e
    show (iterateOp EndpointHealth.record_failure n e.record_failure).consecutive_failures = _
    rw [ih e.record_failure]
    simp only [EndpointHealth.record_failure]
    omega

/-- Five consecutive failures always leave the endpoint unhealthy. -/
lemma record_failure_five_unhealthy (e : EndpointHealth) :
    (iterateOp EndpointHealth.record_failure 5 e).is_healthy = false := by
  rw [show (5 : Nat) = 4 + 1 from rfl, iterateOp_succ_outer]
  have hc := iterate_record_failure_count 4 e
  simp only [EndpointHealth.record_failure]
  rw [if_pos (by omega)]

/-- One `RpcManager::record_failure` call rewrites exactly the first
endpoint carrying the URL. -/
lemma mgr_record_failure_split (m : RpcManager) (u : String)
    (P rest : List EndpointHealth) (e : EndpointHealth)
    (hsplit : m.endpoints = P ++ e :: rest)
    (hP : ∀ x ∈ P, x.url ≠ u) (he : e.url = u) :
    m.record_failure u =
      ⟨P ++ e.record_failure :: rest, m.current_index⟩ := by
  unfold RpcManager.record_failure
  rw [hsplit]
  rw [updateFirst_split P e rest
    (fun x hx => by simpa using hP x hx) (by simpa using he)]

/-- One `RpcManager::record_success` call rewrites exactly the first
endpoint carrying the URL. -/
lemma mgr_record_success_split (m : RpcManager) (u : String)
    (P rest : List EndpointHealth) (e : EndpointHealth)
    (hsplit : m.endpoints = P ++ e :: rest)
    (hP : ∀ x ∈ P, x.url ≠ u) (he : e.url = u) :
    m.record_success u =
      ⟨P ++ e.record_success :: rest, m.current_index⟩ := by
  unfold RpcManager.record_success
  rw [hsplit]
  rw [updateFirst_split P e rest
    (fun x hx => by simpa using hP x hx) (by simpa using he)]

/-- Iterated manager-level `record_failure` tracks the endpoint-level
iteration at the first matching position. -/
lemma mgr_record_failure_iterate (u : String)
    (P rest : List EndpointHealth) (hP : ∀ x ∈ P, x.url ≠ u) :
    ∀ (n : Nat) (m : RpcManager) (e : EndpointHealth),
      m.endpoints = P ++ e :: rest → e.url = u →
      iterateOp (fun mm => mm.record_failure u) n m =
        ⟨P ++ iterateOp EndpointHealth.record_failure n e :: rest,
         m.current_index⟩ := by
  intro n
  induction n with
  | zero =>
    intro m e hsplit _he
    cases m with
    | mk eps idx =>
      simp only [iterateOp, RpcManager.mk.injEq]
      exact ⟨hsplit, trivial⟩
  | succ n ih =>
    intro m e hsplit he
    show iterateOp (fun mm => mm.record_failure u) n (m.record_failure u) = _
    rw [mgr_record_failure_split m u P rest e hsplit hP he]
    rw [ih ⟨P ++ e.record_failure :: rest, m.current_index⟩ e.record_failure
      rfl (by rw [record_failure_url]; exact he)]
    rfl

/-- C3: five consecutive `recordFailure(url)` calls mark the first
endpoint carrying `url` unhealthy; one subsequent `recordSuccess(url)`
marks it healthy again with failure count 0; both calls are no-ops on
the whole manager when no endpoint carries the URL. -/
theorem c3_health_transitions (m : RpcManager) (u : String)
    (P rest : List EndpointHealth) (e : EndpointHealth)
    (hsplit : m.endpoints = P ++ e :: rest)
    (hP : ∀ x ∈ P, x.url ≠ u) (he : e.url = u) :
    (iterateOp (fun mm => mm.record_failure u) 5 m).endpoints
        = P ++ iterateOp EndpointHealth.record_failure 5 e :: rest ∧
    (iterateOp EndpointHealth.record_failure 5 e).is_healthy = false ∧
    ((iterateOp (fun mm => mm.record_failure u) 5 m).record_success u).endpoints
        = P ++ (iterateOp EndpointHealth.record_failure 5 e).record_success :: rest ∧
    ((iterateOp EndpointHealth.record_failure 5 e).record_success).is_healthy = true ∧
    ((iterateOp EndpointHealth.record_failure 5 e).record_success).consecutive_failures = 0 ∧
    (∀ (m' : RpcManager) (u' : String), (∀ x ∈ m'.endpoints, x.url ≠ u') →
      m'.record_failure u' = m' ∧ m'.record_success u' = m') := by
  have h5 := mgr_record_failure_iterate u P rest hP 5 m e hsplit he
  refine ⟨by rw [h5], record_failure_five_unhealthy e, ?_, rfl, rfl, ?_⟩
  · rw [mgr_record_success_split _ u P rest
      (iterateOp EndpointHealth.record_failure 5 e) (by rw [h5]) hP
      (by rw [iterate_record_failure_url]; exact he)]
  · intro m' u' hnone
    have hb : ∀ x ∈ m'.endpoints, (x.url == u') = false := by
      intro x hx; simpa using hnone x hx
    constructor
    · unfold RpcManager.record_failure
      rw [updateFirst_no_match m'.endpoints hb]
    · unfold RpcManager.record_success
      rw [updateFirst_no_match m'.endpoints hb]

/-- Witness for C3 on a fresh single-endpoint manager. -/
theorem c3_health_transitions_witness :
    (iterateOp EndpointHealth.record_failure 5 ⟨"x", 0, 0, 0, true⟩).is_healthy = false ∧
    ((iterateOp EndpointHealth.record_failure 5 ⟨"x", 0, 0, 0, true⟩).record_success).is_healthy = true :=
  have h := c3_health_transitions ⟨[⟨"x", 0, 0, 0, true⟩], 0⟩ "x" [] []
    ⟨"x", 0, 0, 0, true⟩ rfl (by intro x hx; cases hx) rfl
  ⟨h.2.1, h.2.2.2.1⟩

/-! ## Scan-loop lemmas for `get_client` -/

/-- A successful scan points at a qualifying endpoint. -/
lemma scanFrom_some (eps : List EndpointHealth) (now : Nat) :
    ∀ (fuel idx i : Nat), scanFrom eps now idx fuel = some i →
      ∃ e, eps.get? i = some e ∧ qualifies now e = true := by
  intro fuel
  induction fuel with
  | zero => intro idx i h; cases h
  | succ n ih =>
    intro idx i h
    cases hget : eps.get? idx with
    | none =>
      simp only [scanFrom, hget] at h
      cases h
    | some e =>
      simp only [scanFrom, hget] at h
      by_cases hq : qualifies now e = true
      · rw [if_pos hq] at h
        cases h
        exact ⟨e, hget, hq⟩
      · rw [if_neg hq] at h
        exact ih _ _ h

/-- A failed scan saw only non-qualifying endpoints at the `fuel`
positions it visited. -/
lemma scanFrom_none_bad (eps : List EndpointHealth) (now : Nat) :
    ∀ (fuel idx : Nat), idx < eps.length →
      scanFrom eps now idx fuel = none →
      ∀ k < fuel, ∀ e, eps.get? ((idx + k) % eps.length) = some e →
        qualifies now e = false := by
  intro fuel
  induction fuel with
  | zero => intro idx _ _ k hk; omega
  | succ n ih =>
    intro idx hidx h k hk e hget
    have hlen : 0 < eps.length := by omega
    obtain ⟨e0, hget0⟩ : ∃ e0, eps.get? idx = some e0 := by
      rw [List.get?_eq_get hidx]; exact ⟨_, rfl⟩
    simp only [scanFrom, hget0] at h
    by_cases hq : qualifies now e0 = true
    · rw [if_pos hq] at h; cases h
    · rw [if_neg hq] at h
      cases k with
      | zero =>
        rw [Nat.add_zero, Nat.mod_eq_of_lt hidx] at hget
        rw [hget0] at hget
        cases hget
        exact Bool.eq_false_iff.mpr hq
      | succ k' =>
        have hmod : ((idx + 1) % eps.length + k') % eps.length
            = (idx + (k' + 1)) % eps.length := by
          rw [Nat.mod_add_mod]
          congr 1
          omega
        exact ih ((idx + 1) % eps.length) (Nat.mod_lt _ hlen) h k' (by omega) e
          (by rw [hmod]; exact hget)

/-- When every endpoint is unqualified the scan fails. -/
lemma scanFrom_none_of_all_bad (eps : List EndpointHealth) (now : Nat)
    (hall : ∀ e ∈ eps, qualifies now e = false) :
    ∀ (fuel idx : Nat), idx < eps.length →
      scanFrom eps now idx fuel = none := by
  intro fuel
  induction fuel with
  | zero => intro idx _; rfl
  | succ n ih =>
    intro idx hidx
    have hlen : 0 < eps.length := by omega
    obtain ⟨e0, hget0⟩ : ∃ e0, eps.get? idx = some e0 := by
      rw [List.get?_eq_get hidx]; exact ⟨_, rfl⟩
    have hmem : e0 ∈ eps := by
      rw [List.get?_eq_get hidx] at hget0
      cases hget0
      exact List.get_mem eps _ _
    simp only [scanFrom, hget0]
    rw [if_neg (by rw [hall e0 hmem]; simp)]
    exact ih _ (Nat.mod_lt _ hlen)

/-! ## Claim C2 -/

/-- `get_client` reports `NoEndpointAvailable` when the scan fails. -/
lemma get_client_scan_none (m : RpcManager) (now : Nat)
    (hscan : scanFrom m.endpoints now m.current_index m.endpoints.length = none) :
    m.get_client now = .error RpcError.noEndpointAvailable := by
  unfold RpcManager.get_client
  rw [hscan]

/-- `get_client` on a successful scan: selected URL, request recorded,
cursor advanced past the selection. -/
lemma get_client_scan_some (m : RpcManager) (now i : Nat) (e : EndpointHealth)
    (hscan : scanFrom m.endpoints now m.current_index m.endpoints.length = some i)
    (hget : m.endpoints.get? i = some e) :
    m.get_client now = .ok (e.url,
      ⟨m.endpoints.set i (e.record_request now), (i + 1) % m.endpoints.length⟩) := by
  unfold RpcManager.get_client
  rw [hscan]
  simp only [hget]

/-- C2: `get_client` fails with `NoEndpointAvailable` exactly when no
endpoint is simultaneously healthy and unthrottled (the round-robin
scan from the valid cursor visits every endpoint); throttling is
`should_throttle`: the 1-second window has not elapsed and the
in-window count has reached 50.  The hypotheses are the manager
invariants (nonempty endpoint set, cursor in range). -/
theorem c2_no_endpoint_available (m : RpcManager) (now : Nat)
    (hlen : 0 < m.endpoints.length)
    (hcur : m.current_index < m.endpoints.length) :
    m.get_client now = .error RpcError.noEndpointAvailable ↔
      ∀ e ∈ m.endpoints,
        ¬(e.is_healthy = true ∧ e.should_throttle now = false) := by
  constructor
  · intro herr e hmem
    rintro ⟨hh, ht⟩
    have hscan : scanFrom m.endpoints now m.current_index m.endpoints.length
        = none := by
      cases hscan : scanFrom m.endpoints now m.current_index m.endpoints.length with
      | none => rfl
      | some i =>
        exfalso
        obtain ⟨e', hget', _⟩ := scanFrom_some m.endpoints now _ _ _ hscan
        rw [get_client_scan_some m now i e' hscan hget'] at herr
        cases herr
    rcases List.mem_iff_get.mp hmem with ⟨⟨j, hj⟩, hgetj⟩
    have hidx : (m.current_index +
        (j + m.endpoints.length - m.current_index) % m.endpoints.length)
          % m.endpoints.length = j := by
      rw [Nat.add_mod_mod]
      have h1 : m.current_index + (j + m.endpoints.length - m.current_index)
          = j + m.endpoints.length := by omega
      rw [h1, Nat.add_mod_right]
      exact Nat.mod_eq_of_lt hj
    have hget : m.endpoints.get? ((m.current_index +
        (j + m.endpoints.length - m.current_index) % m.endpoints.length)
          % m.endpoints.length) = some e := by
      rw [hidx, ← hgetj]
      exact List.get?_eq_get hj
    have hq := scanFrom_none_bad m.endpoints now m.endpoints.length
      m.current_index hcur hscan _ (Nat.mod_lt _ hlen) e hget
    have hq' : qualifies now e = true := by simp [qualifies, hh, ht]
    rw [hq'] at hq
    cases hq
  · intro hall
    apply get_client_scan_none
    apply scanFrom_none_of_all_bad m.endpoints now _ m.endpoints.length
      m.current_index hcur
    intro e hmem
    cases hh : e.is_healthy with
    | false => simp [qualifies, hh]
    | true =>
      cases ht : e.should_throttle now with
      | true => simp [qualifies, ht]
      | false => exact absurd ⟨hh, ht⟩ (hall e hmem)

/-- Witness for C2: a single-endpoint manager that has just served 50
selections inside one window; the 51st call fails. -/
theorem c2_no_endpoint_available_witness :
    (runSelects 0 50 ⟨[⟨"u", 0, 0, 0, true⟩], 0⟩).2
        = ⟨[⟨"u", 50, 0, 0, true⟩], 0⟩ ∧
    RpcManager.get_client ⟨[⟨"u", 50, 0, 0, true⟩], 0⟩ 0
        = .error RpcError.noEndpointAvailable :=
  ⟨by decide,
   (c2_no_endpoint_available ⟨[⟨"u", 50, 0, 0, true⟩], 0⟩ 0
      (by decide) (by decide)).mpr (by decide)⟩

/-! ## Claim C1 -/

/-- `get?` at the junction of an append. -/
lemma get?_append_cons {α : Type} :
    ∀ (P : List α) (x : α) (l : List α),
      (P ++ x :: l).get? P.length = some x := by
  intro P
  induction P with
  | nil => intro x l; rfl
  | cons y ys ih =>
    intro x l
    show (ys ++ x :: l).get? ys.length = some x
    exact ih x l

/-- A successful token lookup is an entry of the map. -/
lemma lookupToken_mem :
    ∀ (l : List (Pubkey × Nat)) (t : Pubkey) (i : Nat),
      lookupToken l t = some i → (t, i) ∈ l := by
  intro l
  induction l with
  | nil => intro t i h; cases h
  | cons pr r ih =>
    intro t i h
    obtain ⟨a, j⟩ := pr
    simp only [lookupToken] at h
    by_cases ha : a = t
    · rw [if_pos ha] at h
      cases h
      subst ha
      exact List.mem_cons_self _ _
    · rw [if_neg ha] at h
      exact List.mem_cons_of_mem _ (ih t i h)

/-- `getD` through a known `get?`. -/
lemma getD_of_get? :
    ∀ (l : List Pubkey) (n : Nat) (x : Pubkey),
      l.get? n = some x → l.getD n 0 = x := by
  intro l
  induction l with
  | nil => intro n x h; cases h
  | cons y ys ih =>
    intro n x h
    cases n with
    | zero => cases h; rfl
    | succ n => exact ih n x h

/-- Successors are exactly the directed-edge targets. -/
lemma succs_iff (g : PoolGraph) (u v : Nat) :
    v ∈ g.succs u ↔ hasEdge g u v := by
  unfold PoolGraph.succs hasEdge
  constructor
  · intro hv
    rcases List.mem_map.mp hv with ⟨ed, hmem, hdst⟩
    rcases List.mem_filter.mp hmem with ⟨hmem', hsrc⟩
    exact ⟨ed, hmem', of_decide_eq_true hsrc, hdst⟩
  · rintro ⟨ed, hmem, hsrc, hdst⟩
    exact List.mem_map.mpr ⟨ed, List.mem_filter.mpr ⟨hmem, decide_eq_true hsrc⟩, hdst⟩

/-- `find_edge` succeeds whenever a directed edge exists. -/
lemma find_edge_isSome_of_hasEdge (g : PoolGraph) (u v : Nat)
    (h : hasEdge g u v) : ∃ e, g.find_edge u v = some e := by
  unfold PoolGraph.find_edge
  rcases h with ⟨ed, hmem, h1, h2⟩
  have hs : (g.edges.find? fun ed => decide (ed.1 = u ∧ ed.2.1 = v)).isSome := by
    rw [List.find?_isSome]
    exact ⟨ed, hmem, decide_eq_true ⟨h1, h2⟩⟩
  rcases Option.isSome_iff_exists.mp hs with ⟨ed', hed'⟩
  exact ⟨ed'.2.2, by rw [hed']; rfl⟩

/-- What a successful `find_edge` returns. -/
lemma find_edge_spec (g : PoolGraph) (u v : Nat) (e : PoolEdge)
    (h : g.find_edge u v = some e) :
    ∃ ed ∈ g.edges, ed.1 = u ∧ ed.2.1 = v ∧ ed.2.2 = e := by
  unfold PoolGraph.find_edge at h
  cases hf : g.edges.find? (fun ed => decide (ed.1 = u ∧ ed.2.1 = v)) with
  | none => rw [hf] at h; cases h
  | some ed =>
    rw [hf] at h
    injection h with h'
    have hp := List.find?_some hf
    have hmem := List.mem_of_find?_eq_some hf
    have hd := of_decide_eq_true hp
    exact ⟨ed, hmem, hd.1, hd.2, h'⟩

/-- `firstSome` only returns values produced by a member. -/
lemma firstSome_eq_some {α β : Type} (f : α → Option β) :
    ∀ (l : List α) (b : β), firstSome f l = some b → ∃ x ∈ l, f x = some b := by
  intro l
  induction l with
  | nil => intro b h; cases h
  | cons y ys ih =>
    intro b h
    simp only [firstSome] at h
    cases hfy : f y with
    | some c =>
      rw [hfy] at h
      cases h
      exact ⟨y, List.mem_cons_self y ys, hfy⟩
    | none =>
      rw [hfy] at h
      rcases ih b h with ⟨x, hx, hfx⟩
      exact ⟨x, List.mem_cons_of_mem y hx, hfx⟩

/-- `firstSome` succeeds as soon as one member succeeds. -/
lemma firstSome_isSome {α β : Type} (f : α → Option β) :
    ∀ (l : List α) (x : α), x ∈ l → (f x).isSome →
      (firstSome f l).isSome := by
  intro l
  induction l with
  | nil => intro x hx; cases hx
  | cons y ys ih =>
    intro x hx hfx
    simp only [firstSome]
    cases hfy : f y with
    | some c => rfl
    | none =>
      rcases List.mem_cons.mp hx with h1 | h2
      · subst h1
        rw [hfy] at hfx
        cases hfx
      · exact ih x h2 hfx

/-! ## DFS soundness and completeness -/

/-- `dfsPath` finds the trivial walk when start equals goal. -/
lemma dfsPath_self (g : PoolGraph) (t fuel : Nat) (visited : List Nat) :
    dfsPath g t fuel visited t = some [t] := by
  cases fuel <;> simp [dfsPath]

/-- Whatever `dfsPath` returns is a directed walk to the goal. -/
lemma dfsPath_sound (g : PoolGraph) (t : Nat) :
    ∀ (fuel : Nat) (visited : List Nat) (u : Nat) (p : List Nat),
      dfsPath g t fuel visited u = some p → WalkFrom g u t p := by
  intro fuel
  induction fuel with
  | zero =>
    intro visited u p h
    simp only [dfsPath] at h
    by_cases hu : u = t
    · rw [if_pos hu] at h
      cases h
      subst hu
      exact ⟨by simp, rfl, rfl, List.chain'_singleton u⟩
    · rw [if_neg hu] at h
      cases h
  | succ n ih =>
    intro visited u p h
    simp only [dfsPath] at h
    by_cases hu : u = t
    · rw [if_pos hu] at h
      cases h
      subst hu
      exact ⟨by simp, rfl, rfl, List.chain'_singleton u⟩
    · rw [if_neg hu] at h
      rcases firstSome_eq_some _ _ _ h with ⟨v, hv, hfv⟩
      by_cases hmem : v ∈ u :: visited
      · rw [if_pos hmem] at hfv
        cases hfv
      · rw [if_neg hmem] at hfv
        cases hrec : dfsPath g t n (u :: visited) v with
        | none => rw [hrec] at hfv; cases hfv
        | some p' =>
          rw [hrec] at hfv
          simp only [Option.map_some'] at hfv
          cases hfv
          obtain ⟨hne, hhead, hlast, hchain⟩ := ih (u :: visited) v p' hrec
          cases p' with
          | nil => exact absurd rfl hne
          | cons w ws =>
            have hwv : w = v := by
              injection hhead
            refine ⟨by simp, rfl, ?_, ?_⟩
            · rw [List.getLast?_cons_cons]
              exact hlast
            · rw [List.chain'_cons]
              exact ⟨hwv ▸ (succs_iff g u v).mp hv, hchain⟩

/-- `dfsPath` succeeds whenever a duplicate-free walk to the goal
avoiding `visited` fits inside the fuel. -/
lemma dfsPath_complete (g : PoolGraph) (t : Nat) :
    ∀ (p : List Nat) (fuel : Nat) (visited : List Nat) (u : Nat),
      WalkFrom g u t p → p.Nodup → (∀ x ∈ p, x ∉ visited) →
      p.length ≤ fuel + 1 → (dfsPath g t fuel visited u).isSome := by
  intro p
  induction p with
  | nil =>
    intro fuel visited u hw _ _ _
    exact absurd rfl hw.1
  | cons a as ih =>
    intro fuel visited u hw hnd havoid hlen
    obtain ⟨_, hhead, hlast, hchain⟩ := hw
    have hau : a = u := by injection hhead
    subst hau
    by_cases hut : a = t
    · cases fuel with
      | zero => simp [dfsPath, if_pos hut]
      | succ n => simp [dfsPath, if_pos hut]
    · cases as with
      | nil =>
        exfalso
        apply hut
        injection hlast
      | cons v rest =>
        cases fuel with
        | zero =>
          exfalso
          simp only [List.length_cons] at hlen
          omega
        | succ n =>
          simp only [dfsPath, if_neg hut]
          have hedge : hasEdge g a v := (List.chain'_cons.mp hchain).1
          have hvsucc : v ∈ g.succs a := (succs_iff g a v).mpr hedge
          have hvnot : v ∉ a :: visited := by
            intro hv
            rcases List.mem_cons.mp hv with h1 | h2
            · exact (List.nodup_cons.mp hnd).1
                (h1 ▸ List.mem_cons_self v rest)
            · exact havoid v
                (List.mem_cons_of_mem a (List.mem_cons_self v rest)) h2
          have hwalk' : WalkFrom g v t (v :: rest) := by
            refine ⟨by simp, rfl, ?_, (List.chain'_cons.mp hchain).2⟩
            rw [List.getLast?_cons_cons] at hlast
            exact hlast
          have havoid' : ∀ x ∈ v :: rest, x ∉ a :: visited := by
            intro x hx
            simp only [List.mem_cons, not_or]
            constructor
            · intro hxa
              subst hxa
              exact (List.nodup_cons.mp hnd).1 hx
            · exact havoid x (List.mem_cons_of_mem a hx)
          have hrec := ih n (a :: visited) v hwalk'
            (List.nodup_cons.mp hnd).2 havoid'
            (by simp only [List.length_cons] at hlen ⊢; omega)
          apply firstSome_isSome _ _ v hvsucc
          simp only [if_neg hvnot]
          rw [Option.isSome_map']
          exact hrec

/-! ## Walks versus reachability -/

/-- A walk witnesses reachability. -/
lemma walkFrom_reach (g : PoolGraph) :
    ∀ (p : List Nat) (s t : Nat), WalkFrom g s t p → Reach g s t := by
  intro p
  induction p with
  | nil => intro s t hw; exact absurd rfl hw.1
  | cons a as ih =>
    intro s t hw
    obtain ⟨_, hhead, hlast, hchain⟩ := hw
    have has : a = s := by injection hhead
    subst has
    cases as with
    | nil =>
      have hat : a = t := by injection hlast
      exact hat ▸ Relation.ReflTransGen.refl
    | cons v rest =>
      have hedge : hasEdge g a v := (List.chain'_cons.mp hchain).1
      have hrest : WalkFrom g v t (v :: rest) := by
        refine ⟨by simp, rfl, ?_, (List.chain'_cons.mp hchain).2⟩
        rw [List.getLast?_cons_cons] at hlast
        exact hlast
      exact Relation.ReflTransGen.head hedge (ih v t hrest)

/-- Reachability yields a walk. -/
lemma reach_walkFrom (g : PoolGraph) (s t : Nat) (h : Reach g s t) :
    ∃ p, WalkFrom g s t p := by
  induction h using Relation.ReflTransGen.head_induction_on with
  | refl => exact ⟨[t], by simp, rfl, rfl, List.chain'_singleton t⟩
  | head hedge _ ih =>
    rcases ih with ⟨p, hne, hhead, hlast, hchain⟩
    cases p with
    | nil => exact absurd rfl hne
    | cons v rest =>
      refine ⟨_ :: v :: rest, by simp, rfl, ?_, ?_⟩
      · rw [List.getLast?_cons_cons]
        exact hlast
      · rw [List.chain'_cons]
        refine ⟨?_, hchain⟩
        rw [Option.some.inj hhead]
        exact hedge

/-- A list that is not duplicate-free splits at a repeated element. -/
lemma not_nodup_split {α : Type} :
    ∀ (l : List α), ¬ l.Nodup →
      ∃ (P : List α) (x : α) (Q : List α), l = P ++ x :: Q ∧ x ∈ Q := by
  intro l
  induction l with
  | nil => intro h; exact absurd List.nodup_nil h
  | cons y ys ih =>
    intro h
    by_cases hy : y ∈ ys
    · exact ⟨[], y, ys, rfl, hy⟩
    · have hys : ¬ ys.Nodup := fun hnd => h (List.nodup_cons.mpr ⟨hy, hnd⟩)
      rcases ih hys with ⟨P, x, Q, heq, hx⟩
      exact ⟨y :: P, x, Q, by rw [heq]; rfl, hx⟩

/-- `head?` ignores what comes after the first junction element. -/
lemma head?_append_cons_eq {α : Type} (P : List α) (x : α) (l l' : List α) :
    (P ++ x :: l).head? = (P ++ x :: l').head? := by
  cases P <;> rfl

/-- `getLast?` of a list ending in `x :: l` is `getLast?` of `x :: l`. -/
lemma getLast?_append_cons {α : Type} :
    ∀ (P : List α) (x : α) (l : List α),
      (P ++ x :: l).getLast? = (x :: l).getLast? := by
  intro P
  induction P with
  | nil => intro x l; rfl
  | cons y ys ih =>
    intro x l
    obtain ⟨a, as, ha⟩ : ∃ a as, ys ++ x :: l = a :: as := by
      cases ys <;> exact ⟨_, _, rfl⟩
    show (y :: (ys ++ x :: l)).getLast? = (x :: l).getLast?
    rw [ha, List.getLast?_cons_cons, ← ha, ih]

/-- Cutting a cycle out of a walk leaves a (shorter) walk with the
same endpoints over a subset of the nodes. -/
lemma walk_cut (g : PoolGraph) (s t : Nat) (P Q1 Q2 : List Nat) (x : Nat)
    (hw : WalkFrom g s t (P ++ x :: (Q1 ++ x :: Q2))) :
    WalkFrom g s t (P ++ x :: Q2) := by
  obtain ⟨_, hhead, hlast, hchain⟩ := hw
  refine ⟨by simp, ?_, ?_, ?_⟩
  · rw [head?_append_cons_eq P x Q2 (Q1 ++ x :: Q2)]
    exact hhead
  · rw [getLast?_append_cons P x Q2]
    rw [getLast?_append_cons P x (Q1 ++ x :: Q2)] at hlast
    have hsplit : (x :: (Q1 ++ x :: Q2)) = (x :: Q1) ++ x :: Q2 := by simp
    rw [hsplit, getLast?_append_cons (x :: Q1) x Q2] at hlast
    exact hlast
  · have h0 : P ++ x :: (Q1 ++ x :: Q2) = (P ++ [x]) ++ (Q1 ++ x :: Q2) := by simp
    rw [h0] at hchain
    rcases List.chain'_append.mp hchain with ⟨c1, c23, _hlink⟩
    have h1 : Q1 ++ x :: Q2 = (Q1 ++ [x]) ++ Q2 := by simp
    rw [h1] at c23
    rcases List.chain'_append.mp c23 with ⟨_, cq2, hlink2⟩
    have hgoal : List.Chain' (hasEdge g) ((P ++ [x]) ++ Q2) := by
      rw [List.chain'_append]
      refine ⟨c1, cq2, ?_⟩
      intro a ha b hb
      rw [List.getLast?_concat] at ha
      have hax : x = a := by
        simpa using ha
      subst hax
      exact hlink2 x (by rw [List.getLast?_concat]; rfl) b hb
    have h2 : (P ++ [x]) ++ Q2 = P ++ x :: Q2 := by simp
    rw [h2] at hgoal
    exact hgoal

/-- Every walk contains a duplicate-free walk with the same endpoints. -/
lemma walk_shorten (g : PoolGraph) :
    ∀ (n : Nat) (p : List Nat) (s t : Nat), p.length ≤ n →
      WalkFrom g s t p →
      ∃ q, WalkFrom g s t q ∧ q.Nodup ∧ ∀ x ∈ q, x ∈ p := by
  intro n
  induction n with
  | zero =>
    intro p s t hlen hw
    cases p with
    | nil => exact absurd rfl hw.1
    | cons a as => simp at hlen
  | succ n ih =>
    intro p s t hlen hw
    by_cases hnd : p.Nodup
    · exact ⟨p, hw, hnd, fun x hx => hx⟩
    · rcases not_nodup_split p hnd with ⟨P, x, Q, heq, hxQ⟩
      rcases List.append_of_mem hxQ with ⟨Q1, Q2, hQ⟩
      subst hQ
      subst heq
      have hw' : WalkFrom g s t (P ++ x :: Q2) := walk_cut g s t P Q1 Q2 x hw
      have hlen' : (P ++ x :: Q2).length ≤ n := by
        simp only [List.length_append, List.length_cons] at hlen ⊢
        omega
      rcases ih (P ++ x :: Q2) s t hlen' hw' with ⟨q, hq, hqnd, hsub⟩
      refine ⟨q, hq, hqnd, ?_⟩
      intro y hy
      have hmem := hsub y hy
      simp only [List.mem_append, List.mem_cons] at hmem ⊢
      tauto

/-- A duplicate-free list of indices below `n` has length at most `n`. -/
lemma nodup_length_le (q : List Nat) (n : Nat) (hnd : q.Nodup)
    (hlt : ∀ x ∈ q, x < n) : q.length ≤ n := by
  have hsub : q.toFinset ⊆ Finset.range n := by
    intro x hx
    exact Finset.mem_range.mpr (hlt x (List.mem_toFinset.mp hx))
  calc q.length = q.toFinset.card := (List.toFinset_card_of_nodup hnd).symm
    _ ≤ (Finset.range n).card := Finset.card_le_card hsub
    _ = n := Finset.card_range n

/-- Walk nodes stay inside the node arena when edges do. -/
lemma walk_nodes_lt (g : PoolGraph)
    (hwf : ∀ ed ∈ g.edges, ed.1 < g.nodes.length ∧ ed.2.1 < g.nodes.length) :
    ∀ (p : List Nat) (u : Nat), u < g.nodes.length → p.head? = some u →
      List.Chain' (hasEdge g) p → ∀ x ∈ p, x < g.nodes.length := by
  intro p
  induction p with
  | nil => intro u _ _ _ x hx; cases hx
  | cons a as ih =>
    intro u hu hhead hchain x hx
    have hau : a = u := by injection hhead
    subst hau
    rcases List.mem_cons.mp hx with h1 | h2
    · exact h1 ▸ hu
    · cases as with
      | nil => cases h2
      | cons v rest =>
        have hedge : hasEdge g a v := (List.chain'_cons.mp hchain).1
        have hv : v < g.nodes.length := by
          rcases hedge with ⟨ed, hmem, _, hdst⟩
          have := (hwf ed hmem).2
          omega
        exact ih v hv rfl (List.chain'_cons.mp hchain).2 x h2

/-- The `astar` model finds a path exactly when the goal is reachable
(the contract of `petgraph::algo::astar` with total, non-NaN costs). -/
lemma astarModel_isSome_iff (g : PoolGraph)
    (hwf : ∀ ed ∈ g.edges, ed.1 < g.nodes.length ∧ ed.2.1 < g.nodes.length)
    (s t : Nat) (hs : s < g.nodes.length) :
    (astarModel g s t).isSome ↔ Reach g s t := by
  constructor
  · intro h
    rcases Option.isSome_iff_exists.mp h with ⟨p, hp⟩
    exact walkFrom_reach g p s t (dfsPath_sound g t _ _ _ _ hp)
  · intro h
    rcases reach_walkFrom g s t h with ⟨p, hp⟩
    rcases walk_shorten g p.length p s t le_rfl hp with ⟨q, hq, hqnd, _⟩
    have hqlt : ∀ x ∈ q, x < g.nodes.length :=
      walk_nodes_lt g hwf q s hs hq.2.1 hq.2.2.2
    have hql : q.length ≤ g.nodes.length := nodup_length_le q _ hqnd hqlt
    exact dfsPath_complete g t q g.nodes.length [] s hq hqnd
      (by simp) (by omega)

/-! ## Route construction lemmas -/

/-- Decomposing a successful `buildRoute` on a two-or-more node path. -/
lemma buildRoute_cons_shape (g : PoolGraph) (u v : Nat) (rest : List Nat)
    (r : List (Pubkey × PoolEdge))
    (h : g.buildRoute (u :: v :: rest) = .ok r) :
    ∃ e r', g.find_edge u v = some e ∧ g.buildRoute (v :: rest) = .ok r' ∧
      r = (g.nodes.getD u 0, e) :: r' := by
  simp only [PoolGraph.buildRoute] at h
  cases hfe : g.find_edge u v with
  | none => rw [hfe] at h; cases h
  | some e =>
    rw [hfe] at h
    cases hbr : g.buildRoute (v :: rest) with
    | ok r' =>
      rw [hbr] at h
      injection h with h'
      exact ⟨e, r', rfl, rfl, h'.symm⟩
    | error err => rw [hbr] at h; cases h

/-- `buildRoute` succeeds on every directed walk (the "Edge lost in
path" failure is unreachable for paths the search returns). -/
lemma buildRoute_ok_of_chain (g : PoolGraph) :
    ∀ (p : List Nat), List.Chain' (hasEdge g) p →
      ∃ r, g.buildRoute p = .ok r := by
  intro p
  induction p with
  | nil => exact fun _ => ⟨[], rfl⟩
  | cons u as ih =>
    intro hchain
    cases as with
    | nil => exact ⟨[], rfl⟩
    | cons v rest =>
      have hedge := (List.chain'_cons.mp hchain).1
      rcases find_edge_isSome_of_hasEdge g u v hedge with ⟨e, hfe⟩
      rcases ih (List.chain'_cons.mp hchain).2 with ⟨r', hr'⟩
      exact ⟨(g.nodes.getD u 0, e) :: r',
        by simp only [PoolGraph.buildRoute, hfe, hr']⟩

/-- Under the token invariant, the implicit destination of the hop
built from an edge `u → v` is the token at node `v`, and the edge
contains that token. -/
lemma hopDest_find_edge (g : PoolGraph)
    (hwf3 : ∀ ed ∈ g.edges,
      (ed.2.2.token_a = g.nodes.getD ed.1 0 ∧
       ed.2.2.token_b = g.nodes.getD ed.2.1 0) ∨
      (ed.2.2.token_b = g.nodes.getD ed.1 0 ∧
       ed.2.2.token_a = g.nodes.getD ed.2.1 0))
    (u v : Nat) (e : PoolEdge) (h : g.find_edge u v = some e) :
    hopDest (g.nodes.getD u 0, e) = g.nodes.getD v 0 ∧
    (e.token_a = g.nodes.getD v 0 ∨ e.token_b = g.nodes.getD v 0) := by
  rcases find_edge_spec g u v e h with ⟨ed, hmem, h1, h2, h3⟩
  have hd := hwf3 ed hmem
  rw [h1, h2, h3] at hd
  unfold hopDest
  rcases hd with ⟨ha, hb⟩ | ⟨hb, ha⟩
  · rw [if_pos ha.symm]
    exact ⟨hb, Or.inr hb⟩
  · by_cases hc : g.nodes.getD u 0 = e.token_a
    · rw [if_pos hc]
      have hbv : e.token_b = g.nodes.getD v 0 := by
        rw [hb, hc, ha]
      exact ⟨hbv, Or.inr hbv⟩
    · rw [if_neg hc]
      exact ⟨ha, Or.inl ha⟩

/-- Hops built from a walk chain token-to-token. -/
lemma buildRoute_hop_chain (g : PoolGraph)
    (hwf3 : ∀ ed ∈ g.edges,
      (ed.2.2.token_a = g.nodes.getD ed.1 0 ∧
       ed.2.2.token_b = g.nodes.getD ed.2.1 0) ∨
      (ed.2.2.token_b = g.nodes.getD ed.1 0 ∧
       ed.2.2.token_a = g.nodes.getD ed.2.1 0)) :
    ∀ (p : List Nat) (r : List (Pubkey × PoolEdge)),
      List.Chain' (hasEdge g) p → g.buildRoute p = .ok r → HopChain r := by
  intro p
  induction p with
  | nil =>
    intro r _ h
    cases h
    trivial
  | cons u as ih =>
    intro r hchain h
    cases as with
    | nil =>
      cases h
      trivial
    | cons v rest =>
      rcases buildRoute_cons_shape g u v rest r h with ⟨e, r', hfe, hbr', hr⟩
      subst hr
      have hhc' := ih r' (List.chain'_cons.mp hchain).2 hbr'
      cases hr'c : r' with
      | nil => subst hr'c; trivial
      | cons h2 r'' =>
        subst hr'c
        cases rest with
        | nil =>
          simp only [PoolGraph.buildRoute] at hbr'
          cases hbr'
        | cons w rest' =>
          rcases buildRoute_cons_shape g v w rest' (h2 :: r'') hbr'
            with ⟨e2, r2, hfe2, _, hshape⟩
          show hopDest (g.nodes.getD u 0, e) = h2.1 ∧ HopChain (h2 :: r'')
          refine ⟨?_, hhc'⟩
          rw [(hopDest_find_edge g hwf3 u v e hfe).1]
          injection hshape with h21 h22
          rw [h21]

/-- The last hop built from a walk carries the token at the walk's
final node. -/
lemma buildRoute_last (g : PoolGraph)
    (hwf3 : ∀ ed ∈ g.edges,
      (ed.2.2.token_a = g.nodes.getD ed.1 0 ∧
       ed.2.2.token_b = g.nodes.getD ed.2.1 0) ∨
      (ed.2.2.token_b = g.nodes.getD ed.1 0 ∧
       ed.2.2.token_a = g.nodes.getD ed.2.1 0)) :
    ∀ (p : List Nat) (r : List (Pubkey × PoolEdge)),
      List.Chain' (hasEdge g) p → g.buildRoute p = .ok r →
      ∀ lst ∈ r.getLast?, ∀ tl ∈ p.getLast?,
        (lst.2.token_a = g.nodes.getD tl 0 ∨
         lst.2.token_b = g.nodes.getD tl 0) := by
  intro p
  induction p with
  | nil =>
    intro r _ h lst hlst _ _
    cases h
    simp at hlst
  | cons u as ih =>
    intro r hchain h lst hlst tl htl
    cases as with
    | nil =>
      cases h
      simp at hlst
    | cons v rest =>
      rcases buildRoute_cons_shape g u v rest r h with ⟨e, r', hfe, hbr', hr⟩
      subst hr
      cases hr'c : r' with
      | nil =>
        subst hr'c
        cases rest with
        | nil =>
          simp only [List.getLast?_cons_cons] at htl
          simp only [List.getLast?_singleton, Option.mem_some_iff] at hlst htl
          subst hlst
          subst htl
          exact (hopDest_find_edge g hwf3 u v e hfe).2
        | cons w rest' =>
          rcases buildRoute_cons_shape g v w rest' [] hbr'
            with ⟨_, _, _, _, hshape⟩
          cases hshape
      | cons h2 r'' =>
        subst hr'c
        rw [List.getLast?_cons_cons] at hlst
        rw [List.getLast?_cons_cons] at htl
        exact ih (h2 :: r'') (List.chain'_cons.mp hchain).2 hbr' lst hlst tl htl

/-! ## `find_route` case equations -/

/-- `find_route` when the source token is unknown. -/
lemma find_route_eq_none_a (g : PoolGraph) (a b : Pubkey) (amt : Nat)
    (h : lookupToken g.token_to_node a = none) :
    g.find_route a b amt = .error .tokenNotInGraph := by
  unfold PoolGraph.find_route
  rw [h]

/-- `find_route` when the destination token is unknown. -/
lemma find_route_eq_none_b (g : PoolGraph) (a b : Pubkey) (amt s : Nat)
    (ha : lookupToken g.token_to_node a = some s)
    (hb : lookupToken g.token_to_node b = none) :
    g.find_route a b amt = .error .tokenNotInGraph := by
  unfold PoolGraph.find_route
  rw [ha]
  simp only [hb]

/-- `find_route` when both tokens resolve and the search succeeds. -/
lemma find_route_some_astar (g : PoolGraph) (a b : Pubkey) (amt s t : Nat)
    (p : List Nat)
    (ha : lookupToken g.token_to_node a = some s)
    (hb : lookupToken g.token_to_node b = some t)
    (hst : astarModel g s t = some p) :
    g.find_route a b amt = g.buildRoute p := by
  unfold PoolGraph.find_route
  rw [ha]
  simp only [hb, hst]

/-- `find_route` when both tokens resolve and the search fails. -/
lemma find_route_none_astar (g : PoolGraph) (a b : Pubkey) (amt s t : Nat)
    (ha : lookupToken g.token_to_node a = some s)
    (hb : lookupToken g.token_to_node b = some t)
    (hst : astarModel g s t = none) :
    g.find_route a b amt = .error .noRouteFound := by
  unfold PoolGraph.find_route
  rw [ha]
  simp only [hb, hst]

/-! ## Claim C6 -/

/-- C6: `find_route` fails with `TokenNotInGraph` exactly when either
token has no node; fails with `NoRouteFound` exactly when both resolve
but no directed path connects them; and succeeds exactly when both
resolve and a directed path exists — no other failure can occur (the
"Edge lost in path" branch is unreachable).  `find_route` takes the
graph immutably; the embedding is a pure function of `g`, so the graph
is unchanged in every case. -/
theorem c6_find_route_errors (g : PoolGraph) (a b : Pubkey) (amt : Nat)
    (hwf : WFGraph g) :
    (g.find_route a b amt = .error .tokenNotInGraph ↔
      (lookupToken g.token_to_node a = none ∨
       lookupToken g.token_to_node b = none)) ∧
    (g.find_route a b amt = .error .noRouteFound ↔
      (∃ s t, lookupToken g.token_to_node a = some s ∧
        lookupToken g.token_to_node b = some t ∧ ¬ Reach g s t)) ∧
    ((∃ r, g.find_route a b amt = .ok r) ↔
      (∃ s t, lookupToken g.token_to_node a = some s ∧
        lookupToken g.token_to_node b = some t ∧ Reach g s t)) := by
  obtain ⟨hwf1, hwf2, _⟩ := hwf
  cases hla : lookupToken g.token_to_node a with
  | none =>
    have heq := find_route_eq_none_a g a b amt hla
    refine ⟨⟨fun _ => Or.inl rfl, fun _ => heq⟩, ?_, ?_⟩
    · constructor
      · intro h
        rw [heq] at h
        cases h
      · rintro ⟨s, t, hs, _, _⟩
        cases hs
    · constructor
      · rintro ⟨r, hr⟩
        rw [heq] at hr
        cases hr
      · rintro ⟨s, t, hs, _, _⟩
        cases hs
  | some s =>
    cases hlb : lookupToken g.token_to_node b with
    | none =>
      have heq := find_route_eq_none_b g a b amt s hla hlb
      refine ⟨⟨fun _ => Or.inr rfl, fun _ => heq⟩, ?_, ?_⟩
      · constructor
        · intro h
          rw [heq] at h
          cases h
        · rintro ⟨s', t', _, ht', _⟩
          cases ht'
      · constructor
        · rintro ⟨r, hr⟩
          rw [heq] at hr
          cases hr
        · rintro ⟨s', t', _, ht', _⟩
          cases ht'
    | some t =>
      have hsmem := lookupToken_mem _ a s hla
      have hs_lt : s < g.nodes.length := (hwf2 (a, s) hsmem).1
      have hiff := astarModel_isSome_iff g hwf1 s t hs_lt
      cases hastar : astarModel g s t with
      | some p =>
        have hreach : Reach g s t := hiff.mp (by rw [hastar]; rfl)
        have hwalk := dfsPath_sound g t g.nodes.length [] s p hastar
        rcases buildRoute_ok_of_chain g p hwalk.2.2.2 with ⟨r, hbr⟩
        have heq : g.find_route a b amt = .ok r := by
          rw [find_route_some_astar g a b amt s t p hla hlb hastar, hbr]
        refine ⟨?_, ?_, ?_⟩
        · constructor
          · intro h
            rw [heq] at h
            cases h
          · rintro (h | h) <;> cases h
        · constructor
          · intro h
            rw [heq] at h
            cases h
          · rintro ⟨s', t', hs', ht', hnr⟩
            cases hs'
            cases ht'
            exact absurd hreach hnr
        · exact ⟨fun _ => ⟨s, t, rfl, rfl, hreach⟩, fun _ => ⟨r, heq⟩⟩
      | none =>
        have hnreach : ¬ Reach g s t := by
          intro hr
          have hsome := hiff.mpr hr
          rw [hastar] at hsome
          cases hsome
        have heq := find_route_none_astar g a b amt s t hla hlb hastar
        refine ⟨?_, ?_, ?_⟩
        · constructor
          · intro h
            rw [heq] at h
            cases h
          · rintro (h | h) <;> cases h
        · exact ⟨fun _ => ⟨s, t, rfl, rfl, hnreach⟩, fun _ => heq⟩
        · constructor
          · rintro ⟨r, hr⟩
            rw [heq] at hr
            cases hr
          · rintro ⟨s', t', hs', ht', hr⟩
            cases hs'
            cases ht'
            exact absurd hr hnreach

/-! ## Claim C5 -/

/-- A one-pool demonstration graph (tokens 1 and 2, pool id 7). -/
def demoGraph : PoolGraph :=
  PoolGraph.new.add_pool 7 1 2 1000 500 .raydiumV4 30

/-- C5 counterexample: with `from = to` (token 1, which is in the
graph), `astar` returns the single-node path, the route-building loop
runs zero times, and `find_route` successfully returns the empty
route — violating "length ≥ 1". -/
theorem c5_counterexample :
    lookupToken demoGraph.token_to_node 1 = some 0 ∧
    demoGraph.find_route 1 1 5 = .ok [] := by
  constructor
  · decide
  · rfl

/-- C5 amended: every successfully returned route chains
token-to-token (each hop's implicit destination — the edge's
non-source token — is the next hop's source token); when
`from ≠ to` the route is nonempty, its first hop's source token is
`from` and its last hop's edge contains `to`; when `from = to` the
returned route is empty. -/
theorem c5_route_chaining (g : PoolGraph) (a b : Pubkey) (amt : Nat)
    (r : List (Pubkey × PoolEdge)) (hwf : WFGraph g)
    (hok : g.find_route a b amt = .ok r) :
    HopChain r ∧
    (a = b → r = []) ∧
    (a ≠ b → r ≠ [] ∧ (∀ h0 ∈ r.head?, h0.1 = a) ∧
      (∀ lst ∈ r.getLast?, lst.2.token_a = b ∨ lst.2.token_b = b)) := by
  obtain ⟨hwf1, hwf2, hwf3⟩ := hwf
  cases hla : lookupToken g.token_to_node a with
  | none =>
    rw [find_route_eq_none_a g a b amt hla] at hok
    cases hok
  | some s =>
    cases hlb : lookupToken g.token_to_node b with
    | none =>
      rw [find_route_eq_none_b g a b amt s hla hlb] at hok
      cases hok
    | some t =>
      cases hastar : astarModel g s t with
      | none =>
        rw [find_route_none_astar g a b amt s t hla hlb hastar] at hok
        cases hok
      | some p =>
        rw [find_route_some_astar g a b amt s t p hla hlb hastar] at hok
        obtain ⟨hne, hhead, hlast, hchain⟩ :=
          dfsPath_sound g t g.nodes.length [] s p hastar
        have hgets : g.nodes.get? s = some a :=
          (hwf2 (a, s) (lookupToken_mem _ a s hla)).2
        have hgett : g.nodes.get? t = some b :=
          (hwf2 (b, t) (lookupToken_mem _ b t hlb)).2
        refine ⟨buildRoute_hop_chain g hwf3 p r hchain hok, ?_, ?_⟩
        · intro hab
          subst hab
          have hst : s = t := by
            rw [hla] at hlb
            injection hlb
          subst hst
          have hp : p = [s] := by
            have h2 : astarModel g s s = some [s] :=
              dfsPath_self g s g.nodes.length []
            rw [hastar] at h2
            injection h2
          subst hp
          simp only [PoolGraph.buildRoute] at hok
          injection hok with h'
          exact h'.symm
        · intro hab
          have hst : s ≠ t := by
            intro h
            subst h
            rw [hgets] at hgett
            injection hgett with h'
            exact hab h'
          cases p with
          | nil => exact absurd rfl hne
          | cons u as =>
            have hus : u = s := by injection hhead
            subst hus
            cases as with
            | nil =>
              exfalso
              apply hst
              injection hlast
            | cons v rest =>
              rcases buildRoute_cons_shape g u v rest r hok with ⟨e, r', hfe, hbr', hr⟩
              subst hr
              refine ⟨by simp, ?_, ?_⟩
              · intro h0 hh0
                simp only [List.head?_cons, Option.mem_some_iff] at hh0
                subst hh0
                exact getD_of_get? g.nodes u a hgets
              · intro lst hlst
                have hby := buildRoute_last g hwf3 (u :: v :: rest)
                  ((g.nodes.getD u 0, e) :: r') hchain hok lst hlst t
                  (by rw [hlast]; rfl)
                rw [getD_of_get? g.nodes t b hgett] at hby
                exact hby

/-- Witness for the amended C5 on the demonstration graph. -/
theorem c5_route_chaining_witness :
    HopChain [((1 : Pubkey), (⟨7, .raydiumV4, 1, 2, 1000, 500, 30⟩ : PoolEdge))] ∧
    ([((1 : Pubkey), (⟨7, .raydiumV4, 1, 2, 1000, 500, 30⟩ : PoolEdge))] :
      List (Pubkey × PoolEdge)) ≠ [] :=
  have h := c5_route_chaining demoGraph 1 2 10
    [(1, ⟨7, .raydiumV4, 1, 2, 1000, 500, 30⟩)] (by decide) (by rfl)
  ⟨h.1, (h.2.2 (by decide)).1⟩

/-- Witness for C6: routing from a known token to an unknown one. -/
theorem c6_find_route_errors_witness :
    demoGraph.find_route 1 3 5 = .error .tokenNotInGraph :=
  (c6_find_route_errors demoGraph 1 3 5 (by decide)).1.mpr (Or.inr (by decide))

/-! ## `WFGraph` covers every API-reachable graph -/

/-- The empty graph is well-formed. -/
lemma wf_new : WFGraph PoolGraph.new := by decide

/-- `getD` through an append, inside the left part. -/
lemma getD_append_left :
    ∀ (l l' : List Pubkey) (i : Nat), i < l.length →
      (l ++ l').getD i 0 = l.getD i 0 := by
  intro l
  induction l with
  | nil => intro l' i h; cases h
  | cons y ys ih =>
    intro l' i h
    cases i with
    | zero => rfl
    | succ i => exact ih l' i (by simpa using h)

/-- Everything `get_or_create_node` guarantees. -/
lemma get_or_create_spec (g : PoolGraph) (tkn : Pubkey) (hwf : WFGraph g) :
    WFGraph (g.get_or_create_node tkn).1 ∧
    (g.get_or_create_node tkn).2 < (g.get_or_create_node tkn).1.nodes.length ∧
    (g.get_or_create_node tkn).1.nodes.get? (g.get_or_create_node tkn).2
      = some tkn ∧
    (g.get_or_create_node tkn).1.edges = g.edges ∧
    g.nodes.length ≤ (g.get_or_create_node tkn).1.nodes.length ∧
    (∀ i, i < g.nodes.length →
      (g.get_or_create_node tkn).1.nodes.get? i = g.nodes.get? i) := by
  obtain ⟨hwf1, hwf2, hwf3⟩ := hwf
  unfold PoolGraph.get_or_create_node
  cases hl : lookupToken g.token_to_node tkn with
  | some i =>
    dsimp only
    have hmem := lookupToken_mem _ tkn i hl
    exact ⟨⟨hwf1, hwf2, hwf3⟩, (hwf2 (tkn, i) hmem).1, (hwf2 (tkn, i) hmem).2,
      rfl, le_refl _, fun _ _ => rfl⟩
  | none =>
    dsimp only
    have hget_keep : ∀ i, i < g.nodes.length →
        (g.nodes ++ [tkn]).get? i = g.nodes.get? i :=
      fun i h => List.get?_append h
    have hget_new : (g.nodes ++ [tkn]).get? g.nodes.length = some tkn :=
      get?_append_cons g.nodes tkn []
    have hgetD_keep : ∀ i, i < g.nodes.length →
        (g.nodes ++ [tkn]).getD i 0 = g.nodes.getD i 0 :=
      fun i h => getD_append_left g.nodes [tkn] i h
    have hlen : (g.nodes ++ [tkn]).length = g.nodes.length + 1 := by
      simp
    refine ⟨⟨?_, ?_, ?_⟩, ?_, ?_, rfl, ?_, ?_⟩
    · intro ed hed
      have := hwf1 ed hed
      rw [hlen]
      omega
    · intro pr hpr
      rcases List.mem_append.mp hpr with hold | hnew
      · have := hwf2 pr hold
        rw [hlen, hget_keep pr.2 this.1]
        exact ⟨by omega, this.2⟩
      · have hpr' : pr = (tkn, g.nodes.length) := by simpa using hnew
        subst hpr'
        rw [hlen]
        exact ⟨by omega, hget_new⟩
    · intro ed hed
      have h1 := hwf1 ed hed
      have := hwf3 ed hed
      rw [hgetD_keep ed.1 h1.1, hgetD_keep ed.2.1 h1.2]
      exact this
    · rw [hlen]
      omega
    · exact hget_new
    · rw [hlen]
      omega
    · exact hget_keep

/-- Adding the two directed edges of a pool between two existing
nodes holding the pool's tokens preserves well-formedness. -/
lemma wf_extend (g' : PoolGraph) (na nb : Nat) (pid ta tb : Pubkey)
    (ra rb : Nat) (dex : DexType) (fee : Nat)
    (hwf : WFGraph g')
    (hna : g'.nodes.get? na = some ta) (hnb : g'.nodes.get? nb = some tb)
    (hna_lt : na < g'.nodes.length) (hnb_lt : nb < g'.nodes.length) :
    WFGraph { g' with edges := g'.edges ++
      [(na, nb, ⟨pid, dex, ta, tb, ra, rb, fee⟩),
       (nb, na, ⟨pid, dex, ta, tb, ra, rb, fee⟩)] } := by
  obtain ⟨hwf1, hwf2, hwf3⟩ := hwf
  have hda : g'.nodes.getD na 0 = ta := getD_of_get? g'.nodes na ta hna
  have hdb : g'.nodes.getD nb 0 = tb := getD_of_get? g'.nodes nb tb hnb
  refine ⟨?_, hwf2, ?_⟩
  · intro ed hed
    rcases List.mem_append.mp hed with hold | hnew
    · exact hwf1 ed hold
    · rcases List.mem_cons.mp hnew with h1 | h2
      · subst h1; exact ⟨hna_lt, hnb_lt⟩
      · have h3 : ed = (nb, na, ⟨pid, dex, ta, tb, ra, rb, fee⟩) := by
          simpa using h2
        subst h3
        exact ⟨hnb_lt, hna_lt⟩
  · intro ed hed
    rcases List.mem_append.mp hed with hold | hnew
    · exact hwf3 ed hold
    · rcases List.mem_cons.mp hnew with h1 | h2
      · subst h1
        exact Or.inl ⟨hda.symm, hdb.symm⟩
      · have h3 : ed = (nb, na, ⟨pid, dex, ta, tb, ra, rb, fee⟩) := by
          simpa using h2
        subst h3
        exact Or.inr ⟨hdb.symm, hda.symm⟩

/-- `add_pool` preserves well-formedness: every graph built by the
`PoolGraph` API satisfies `WFGraph`. -/
lemma wf_add_pool (g : PoolGraph) (pid ta tb : Pubkey) (ra rb : Nat)
    (dex : DexType) (fee : Nat) (hwf : WFGraph g) :
    WFGraph (g.add_pool pid ta tb ra rb dex fee) := by
  have spec1 := get_or_create_spec g ta hwf
  have spec2 := get_or_create_spec (g.get_or_create_node ta).1 tb spec1.1
  have happ : g.add_pool pid ta tb ra rb dex fee =
      { ((g.get_or_create_node ta).1.get_or_create_node tb).1 with
        edges := ((g.get_or_create_node ta).1.get_or_create_node tb).1.edges ++
          [((g.get_or_create_node ta).2,
            ((g.get_or_create_node ta).1.get_or_create_node tb).2,
            ⟨pid, dex, ta, tb, ra, rb, fee⟩),
           (((g.get_or_create_node ta).1.get_or_create_node tb).2,
            (g.get_or_create_node ta).2,
            ⟨pid, dex, ta, tb, ra, rb, fee⟩)] } := rfl
  rw [happ]
  apply wf_extend
  · exact spec2.1
  · rw [spec2.2.2.2.2.2 (g.get_or_create_node ta).2 spec1.2.1]
    exact spec1.2.2.1
  · exact spec2.2.2.1
  · exact lt_of_lt_of_le spec1.2.1 spec2.2.2.2.2.1
  · exact spec2.2.1

/-- `update_reserves` preserves well-formedness. -/
lemma wf_update_reserves (g : PoolGraph) (pid : Pubkey) (ra rb : Nat)
    (hwf : WFGraph g) : WFGraph (g.update_reserves pid ra rb).2 := by
  obtain ⟨hwf1, hwf2, hwf3⟩ := hwf
  unfold PoolGraph.update_reserves
  simp only
  refine ⟨?_, hwf2, ?_⟩
  · intro ed hed
    rcases List.mem_map.mp hed with ⟨ed0, hmem, hmap⟩
    have h0 := hwf1 ed0 hmem
    by_cases hp : ed0.2.2.pool_address = pid
    · rw [if_pos hp] at hmap
      subst hmap
      exact h0
    · rw [if_neg hp] at hmap
      subst hmap
      exact h0
  · intro ed hed
    rcases List.mem_map.mp hed with ⟨ed0, hmem, hmap⟩
    have h0 := hwf3 ed0 hmem
    by_cases hp : ed0.2.2.pool_address = pid
    · rw [if_pos hp] at hmap
      subst hmap
      exact h0
    · rw [if_neg hp] at hmap
      subst hmap
      exact h0
